import Mathlib

/-!
Verification development for the versioned-dataset store of
openclean-notebook (`openclean_jupyter/datastore/`): the HISTORE-backed
durable datastore (`histore.py`) and the in-memory caching wrapper
(`cache.py`).

The embedding is a shallow one.  Python dictionaries (the cache map of
`CachedDatastore` and the name-to-archive map of the archive manager) are
modelled as association lists with the usual dictionary semantics: at most
one binding per key in every reachable state, assignment to an existing key
keeps its position, assignment to a fresh key appends, deletion removes the
binding of the key.  `datetime.now()` is modelled by a logical clock that is
part of the state and advances at every timestamp consumption, so that
successive insertion timestamps are strictly increasing.  Python exceptions
(`ValueError` for unknown names/versions, the `KeyError` that
`del self._cache[None]` raises) are modelled with `Except`.  Data frames are
abstracted to an opaque `Nat` payload; dataset names are `String`.
-/

deriving instance DecidableEq for Except

namespace OpencleanDS

/-- Errors surfaced by the datastore layer.  `notFound` models the
`ValueError("unknown archive ...")` of `HISTOREDatastore._get_archive_id`,
`unknownVersion` the error the HISTORE archive raises for a version that is
not in the history, `alreadyExists` the error raised when loading a dataset
under a name that is in use, and `keyErrorNone` the Python `KeyError` raised
by `del self._cache[None]`. -/
inductive Err where
  | notFound (name : String)
  | unknownVersion (name : String) (version : Nat)
  | alreadyExists (name : String)
  | keyErrorNone
deriving DecidableEq, Repr

/-- A snapshot stored in an archive: version identifier, creation time and
the (abstracted) data frame content. -/
structure Snapshot where
  version : Nat
  created_at : Nat
  df : Nat
deriving DecidableEq, Repr

/-- `Dataset` handle as in `datastore/base.py`: data frame plus version and
creation timestamp. -/
structure Dataset where
  version : Nat
  created_at : Nat
  df : Nat
deriving DecidableEq, Repr

/-- One archive of the archive manager: the identifier assigned at creation
and the snapshots in creation order (nonempty in every reachable state). -/
structure ArchiveData where
  ident : String
  snaps : List Snapshot
deriving DecidableEq, Repr

/-- State of the backing `HISTOREDatastore`: a dictionary mapping dataset
names to archives. -/
abbrev BackingState := List (String × ArchiveData)

/-- Dictionary lookup on the name-to-archive map. -/
def lookupA : BackingState → String → Option ArchiveData
  | [], _ => none
  | (k, a) :: rest, n => if k = n then some a else lookupA rest n

/-- Dictionary assignment on the name-to-archive map: replace the binding of
an existing key in place, append a binding for a fresh key. -/
def insertA : BackingState → String → ArchiveData → BackingState
  | [], n, a => [(n, a)]
  | (k, b) :: rest, n, a =>
      if k = n then (n, a) :: rest else (k, b) :: insertA rest n a

/-- Dictionary deletion on the name-to-archive map (a dictionary holds at
most one binding per key, so removing every binding of the key is the
dictionary `del`). -/
def eraseA (store : BackingState) (n : String) : BackingState :=
  store.filter (fun p => p.1 ≠ n)

namespace HISTOREDatastore

/-- `HISTOREDatastore.checkout`: look the archive up by name (raising for an
unknown name), then fetch the requested snapshot — the last one when no
version is given, the one with the requested version identifier otherwise
(raising for an unknown version). -/
def checkout (store : BackingState) (name : String) (version : Option Nat) :
    Except Err Dataset :=
  match lookupA store name with
  | none => .error (.notFound name)
  | some arch =>
      match version with
      | none =>
          match arch.snaps.getLast? with
          | none => .error (.unknownVersion name 0)
          | some sn => .ok ⟨sn.version, sn.created_at, sn.df⟩
      | some v =>
          match arch.snaps.find? (fun sn => sn.version == v) with
          | none => .error (.unknownVersion name v)
          | some sn => .ok ⟨sn.version, sn.created_at, sn.df⟩

/-- `HISTOREDatastore.last_version`: version of the last snapshot of the
archive, raising for an unknown name. -/
def last_version (store : BackingState) (name : String) : Except Err Nat :=
  match lookupA store name with
  | none => .error (.notFound name)
  | some arch =>
      match arch.snaps.getLast? with
      | none => .error (.notFound name)
      | some sn => .ok sn.version

/-- `HISTOREDatastore.commit`: look the archive up by name (raising for an
unknown name), append a snapshot carrying the next version number, and
return the dataset handle for the new snapshot.  The `action` argument is
accepted — mirroring the Python signature — but, exactly as in the source
(`archive.commit(doc=df)` at histore.py line 109), it is not used. -/
def commit (store : BackingState) (df : Nat) (name : String)
    (action : Option Nat) (now : Nat) : Except Err (Dataset × BackingState) :=
  match lookupA store name with
  | none => .error (.notFound name)
  | some arch =>
      let v : Nat :=
        match arch.snaps.getLast? with
        | none => 0
        | some sn => sn.version + 1
      let sn : Snapshot := ⟨v, now, df⟩
      .ok (⟨v, now, df⟩, insertA store name ⟨arch.ident, arch.snaps ++ [sn]⟩)

/-- `HISTOREDatastore.load`: create a fresh archive for the name (raising if
the name is already in use), commit the document as version 0, and return
the handle of the new snapshot. -/
def load (store : BackingState) (df : Nat) (name : String) (ident : String)
    (now : Nat) : Except Err (Dataset × BackingState) :=
  match lookupA store name with
  | some _ => .error (.alreadyExists name)
  | none =>
      let sn : Snapshot := ⟨0, now, df⟩
      .ok (⟨0, now, df⟩, store ++ [(name, ⟨ident, [sn]⟩)])

/-- `HISTOREDatastore.drop`: resolve the archive identifier by name (raising
for an unknown name) and delete the archive. -/
def drop (store : BackingState) (name : String) : Except Err BackingState :=
  match lookupA store name with
  | none => .error (.notFound name)
  | some _ => .ok (eraseA store name)

/-- Handle returned by `HISTOREDatastore.metadata`: a
`FileSystemMetadataStore` rooted at the computed directory. -/
structure MetadataStoreHandle where
  basedir : String
deriving DecidableEq, Repr

/-- Directory for the annotations of one dataset version:
`basedir/.annotations/archive_id/str(version)`. -/
def metaPath (basedir ident : String) (version : Nat) : String :=
  basedir ++ "/.annotations/" ++ ident ++ "/" ++ toString version

/-- `HISTOREDatastore.metadata`: resolve the archive identifier by name
(raising for an unknown name); when no version is given use the last
snapshot's version; build the annotation directory from the base directory,
the archive identifier and the version number, and return the metadata store
rooted there.  An explicitly given version number is used verbatim in the
path and is never checked against the archive's history. -/
def metadata (basedir : String) (store : BackingState) (name : String)
    (version : Option Nat) : Except Err MetadataStoreHandle :=
  match lookupA store name with
  | none => .error (.notFound name)
  | some arch =>
      match version with
      | none =>
          match arch.snaps.getLast? with
          | none => .error (.notFound name)
          | some sn => .ok ⟨metaPath basedir arch.ident sn.version⟩
      | some v => .ok ⟨metaPath basedir arch.ident v⟩

end HISTOREDatastore

/-- `CacheEntry` of `datastore/cache.py`: the cached dataset handle, the
cache-insertion timestamp and the flag marking the snapshot as the last one
in the dataset's history. -/
structure CacheEntry where
  ds : Dataset
  created_at : Nat
  is_last : Bool
deriving DecidableEq, Repr

/-- `CacheEntry.matches_version`: a request with no version matches iff the
entry is flagged as last; a request for an explicit version matches iff it
equals the cached snapshot's version (`None == self.ds.version` is false in
Python, so the explicit comparison only fires for explicit versions). -/
def CacheEntry.matches_version (e : CacheEntry) (version : Option Nat) : Bool :=
  (version == none && e.is_last) || (version == some e.ds.version)

/-- The cache map of `CachedDatastore`: a dictionary from dataset names to
cache entries. -/
abbrev Cache := List (String × CacheEntry)

/-- Dictionary lookup on the cache map. -/
def lookupC : Cache → String → Option CacheEntry
  | [], _ => none
  | (k, e) :: rest, n => if k = n then some e else lookupC rest n

/-- Dictionary assignment on the cache map (`self._cache[name] = entry`):
replace the binding of an existing key in place, append a binding for a
fresh key. -/
def insertC : Cache → String → CacheEntry → Cache
  | [], n, e => [(n, e)]
  | (k, d) :: rest, n, e =>
      if k = n then (n, e) :: rest else (k, d) :: insertC rest n e

/-- Dictionary deletion on the cache map (`del self._cache[name]`; a
dictionary holds at most one binding per key, so removing every binding of
the key is the dictionary `del`). -/
def eraseC (cache : Cache) (n : String) : Cache :=
  cache.filter (fun p => p.1 ≠ n)

/-- Keys of the cache map. -/
def keysC (cache : Cache) : List String := cache.map Prod.fst

/-- State of a `CachedDatastore`: the configured cache size, the cache map,
the state of the wrapped backing datastore, and the logical clock standing
for `datetime.now()`. -/
structure CachedState where
  cache_size : Nat
  cache : Cache
  store : BackingState
  clock : Nat
deriving DecidableEq, Repr

/-- Observable invocations of the backing datastore, recorded so that
"served from the cache with no call to the backing store" is expressible. -/
inductive BCall where
  | checkout (name : String) (version : Option Nat)
  | lastVersion (name : String)
  | commit (name : String)
  | load (name : String)
  | drop (name : String)
deriving DecidableEq, Repr

namespace CachedDatastore

/-- One step of the eviction scan of `CachedDatastore._update_cache`:
`if first_ts is None or item.created_at < first_ts` keeps the first key
whose insertion timestamp is strictly smaller than the best seen so far. -/
def evictStep (acc : Option (String × Nat)) (kv : String × CacheEntry) :
    Option (String × Nat) :=
  match acc with
  | none => some (kv.1, kv.2.created_at)
  | some (k, ts) =>
      if kv.2.created_at < ts then some (kv.1, kv.2.created_at)
      else some (k, ts)

/-- The eviction scan of `CachedDatastore._update_cache`: iterate over the
cache entries with `evictStep`, yielding the least recently added key and
its insertion timestamp. -/
def evictScan (cache : Cache) : Option (String × Nat) :=
  cache.foldl evictStep none

/-- `CachedDatastore._update_cache`: when the name is not in the cache and
the cache already holds exactly `cache_size` entries, scan for the least
recently added entry and delete it — when the scan yields no victim (the
cache is empty, which happens for `cache_size = 0`) the Python
`del self._cache[None]` raises a `KeyError`; then install a fresh entry for
the name, stamped with the current time. -/
def updateCache (s : CachedState) (name : String) (dataset : Dataset)
    (is_last : Bool) : Except Err CachedState :=
  if (lookupC s.cache name).isNone ∧ s.cache.length = s.cache_size then
    match evictScan s.cache with
    | none => .error .keyErrorNone
    | some (victim, _) =>
        let cache' := eraseC s.cache victim
        .ok { s with
                cache := insertC cache' name ⟨dataset, s.clock, is_last⟩,
                clock := s.clock + 1 }
  else
    .ok { s with
            cache := insertC s.cache name ⟨dataset, s.clock, is_last⟩,
            clock := s.clock + 1 }

/-- The cache-miss path of `CachedDatastore.checkout`: delegate the checkout
to the backing store, compute `is_last = (version is None) or (version ==
self.last_version(name))` (with Python's short-circuit `or`, so
`last_version` is only consulted for an explicit version), update the cache
and return the checked-out dataset.  The third component records the calls
made to the backing store. -/
def checkoutMiss (s : CachedState) (name : String) (version : Option Nat) :
    Except Err Dataset × CachedState × List BCall :=
  match HISTOREDatastore.checkout s.store name version with
  | .error e => (.error e, s, [.checkout name version])
  | .ok ds =>
      match version with
      | none =>
          match updateCache s name ds true with
          | .error e => (.error e, s, [.checkout name version])
          | .ok s' => (.ok ds, s', [.checkout name version])
      | some v =>
          match HISTOREDatastore.last_version s.store name with
          | .error e =>
              (.error e, s, [.checkout name version, .lastVersion name])
          | .ok lv =>
              match updateCache s name ds (v == lv) with
              | .error e =>
                  (.error e, s, [.checkout name version, .lastVersion name])
              | .ok s' =>
                  (.ok ds, s', [.checkout name version, .lastVersion name])

/-- `CachedDatastore.checkout`: serve from the cache when an entry for the
name matches the requested version; otherwise run the cache-miss path
`checkoutMiss`. -/
def checkout (s : CachedState) (name : String) (version : Option Nat) :
    Except Err Dataset × CachedState × List BCall :=
  match lookupC s.cache name with
  | some entry =>
      if entry.matches_version version then (.ok entry.ds, s, [])
      else checkoutMiss s name version
  | none => checkoutMiss s name version

/-- `CachedDatastore.commit`: delegate the commit to the backing store, then
install the returned snapshot as the cache entry for the name (with the
default `is_last = True`). -/
def commit (s : CachedState) (df : Nat) (name : String)
    (action : Option Nat) : Except Err Dataset × CachedState × List BCall :=
  match HISTOREDatastore.commit s.store df name action s.clock with
  | .error e => (.error e, s, [.commit name])
  | .ok (ds, store') =>
      let s1 : CachedState := { s with store := store', clock := s.clock + 1 }
      match updateCache s1 name ds true with
      | .error e => (.error e, s1, [.commit name])
      | .ok s2 => (.ok ds, s2, [.commit name])

/-- `CachedDatastore.load`: delegate the load to the backing store, then
install the returned snapshot as the cache entry for the name (with the
default `is_last = True`). -/
def load (s : CachedState) (df : Nat) (name : String) (ident : String) :
    Except Err Dataset × CachedState × List BCall :=
  match HISTOREDatastore.load s.store df name ident s.clock with
  | .error e => (.error e, s, [.load name])
  | .ok (ds, store') =>
      let s1 : CachedState := { s with store := store', clock := s.clock + 1 }
      match updateCache s1 name ds true with
      | .error e => (.error e, s1, [.load name])
      | .ok s2 => (.ok ds, s2, [.load name])

/-- `CachedDatastore.drop`: first evict any cache entry for the name, then
delegate the drop to the backing store.  When the backing store raises, the
cache eviction has already happened. -/
def drop (s : CachedState) (name : String) :
    Except Err Unit × CachedState × List BCall :=
  let s1 : CachedState := { s with cache := eraseC s.cache name }
  match HISTOREDatastore.drop s1.store name with
  | .error e => (.error e, s1, [.drop name])
  | .ok store' => (.ok (), { s1 with store := store' }, [.drop name])

end CachedDatastore

/-! ### Operation sequences over a `CachedDatastore`

`Op` is an arbitrary call against the wrapper; `applyOp` is the state after
the call, whether it succeeded or raised; `runOps` folds a call sequence.
`updateMany` iterates `_update_cache` over a list of names (the repeated
insertions of the eviction-bound scenario), and `entriesFrom` is the cache
contents that such a fill produces. -/

/-- One call against the cached datastore. -/
inductive Op where
  | checkout (name : String) (version : Option Nat)
  | commit (df : Nat) (name : String) (action : Option Nat)
  | load (df : Nat) (name : String) (ident : String)
  | drop (name : String)
deriving DecidableEq, Repr

/-- The state of the cached datastore after one call (also on error: the
operations return the possibly mutated state alongside the raised error). -/
def applyOp (s : CachedState) : Op → CachedState
  | .checkout n v => (CachedDatastore.checkout s n v).2.1
  | .commit df n a => (CachedDatastore.commit s df n a).2.1
  | .load df n i => (CachedDatastore.load s df n i).2.1
  | .drop n => (CachedDatastore.drop s n).2.1

/-- The state after a sequence of calls. -/
def runOps (s : CachedState) : List Op → CachedState
  | [] => s
  | op :: rest => runOps (applyOp s op) rest

/-- The cache invariant: the configured size is `N`, the cache map holds at
most one entry per dataset name, and at most `N` entries in total. -/
def CacheInv (N : Nat) (s : CachedState) : Prop :=
  s.cache_size = N ∧ (keysC s.cache).Nodup ∧ s.cache.length ≤ N

/-- Iterate `_update_cache` (with `is_last = True`) over a list of dataset
names, stopping at the first error. -/
def updateMany (ds : Dataset) : CachedState → List String → Except Err CachedState
  | s, [] => .ok s
  | s, n :: rest =>
      match CachedDatastore.updateCache s n ds true with
      | .error e => .error e
      | .ok s' => updateMany ds s' rest

/-- The cache produced by filling an empty cache with the given names at
consecutive clock ticks starting from `c`. -/
def entriesFrom (ds : Dataset) : Nat → List String → Cache
  | _, [] => []
  | c, n :: rest => (n, ⟨ds, c, true⟩) :: entriesFrom ds (c + 1) rest

/-! ### Concrete states used by witnesses and counterexamples -/

/-- Concrete dataset handle used by the C1 witness. -/
def dsW1 : Dataset := ⟨3, 10, 42⟩

/-- Concrete cache entry used by the C1 witness. -/
def eW1 : CacheEntry := ⟨dsW1, 5, true⟩

/-- Concrete cached-datastore state used by the C1 witness. -/
def sW1 : CachedState :=
  ⟨1, [("a", eW1)], [("a", ⟨"idA", [⟨3, 10, 42⟩]⟩)], 6⟩

/-- Concrete backing store used by the C3 theorem: one dataset `a` with a
single snapshot. -/
def storeW3 : BackingState := [("a", ⟨"idA", [⟨0, 0, 5⟩]⟩)]

/-- Concrete cached-datastore state with `cache_size = 0` and an empty
cache, used by the C3 theorem. -/
def sW3 : CachedState := ⟨0, [], storeW3, 0⟩

/-- Concrete state used by the C2 witness: cache of capacity 2 holding one
entry, for `x`. -/
def sW2a : CachedState := ⟨2, [("x", ⟨⟨0, 0, 1⟩, 5, true⟩)], [], 9⟩

/-- Concrete state used by the C2 witness: full cache of capacity 2: `x`
inserted at tick 5, `y` at tick 3. -/
def sW2b : CachedState :=
  ⟨2, [("x", ⟨⟨0, 0, 1⟩, 5, true⟩), ("y", ⟨⟨0, 0, 2⟩, 3, true⟩)], [], 9⟩

/-- Concrete state used by the C4 counterexample: the cache holds an entry
for `a` while the backing store does not know `a`. -/
def sW4 : CachedState := ⟨1, [("a", ⟨⟨0, 0, 5⟩, 2, true⟩)], [], 3⟩

/-- Concrete state used by the C4 witness: the cache holds `a`, the backing
store holds only `b`. -/
def sW4b : CachedState :=
  ⟨2, [("a", ⟨⟨0, 0, 5⟩, 1, true⟩)], [("b", ⟨"idB", [⟨0, 0, 6⟩]⟩)], 4⟩

/-- Concrete state used by the C6 witness. -/
def sW6 : CachedState := ⟨1, [], [("a", ⟨"idA", [⟨0, 0, 5⟩]⟩)], 0⟩

/-- Concrete state used by the C7 witness. -/
def sW7 : CachedState :=
  ⟨1, [("a", ⟨⟨0, 0, 5⟩, 0, true⟩)], [("a", ⟨"idA", [⟨0, 0, 5⟩]⟩)], 1⟩

/-- Concrete state used by the C8 counterexample. -/
def sW8 : CachedState := ⟨1, [], [("a", ⟨"idA", [⟨0, 0, 5⟩]⟩)], 3⟩

/-- Concrete state used by the C9 witness: version 1 of `a` is cached as
latest; version 0 is then checked out explicitly. -/
def sW9 : CachedState :=
  ⟨1, [("a", ⟨⟨1, 1, 6⟩, 0, true⟩)],
    [("a", ⟨"idA", [⟨0, 0, 5⟩, ⟨1, 1, 6⟩]⟩)], 2⟩

/-- Concrete backing store used by the C10 witness. -/
def storeW10 : BackingState := [("a", ⟨"idA", [⟨0, 0, 5⟩, ⟨1, 1, 6⟩]⟩)]

/-! ### Dictionary lemmas for the cache map -/

theorem lookupC_insertC_self (c : Cache) (n : String) (e : CacheEntry) :
    lookupC (insertC c n e) n = some e := by
  induction c with
  | nil => simp [insertC, lookupC]
  | cons kv rest ih =>
      obtain ⟨k, d⟩ := kv
      by_cases h : k = n
      · simp [insertC, lookupC, h]
      · simp [insertC, lookupC, h, ih]

theorem lookupC_insertC_ne (c : Cache) (n m : String) (e : CacheEntry)
    (hnm : m ≠ n) : lookupC (insertC c n e) m = lookupC c m := by
  induction c with
  | nil => simp [insertC, lookupC, Ne.symm hnm]
  | cons kv rest ih =>
      obtain ⟨k, d⟩ := kv
      by_cases h : k = n
      · subst h
        simp [insertC, lookupC, Ne.symm hnm]
      · by_cases h2 : k = m
        · simp [insertC, lookupC, h, h2, hnm]
        · simp [insertC, lookupC, h, h2, ih]

theorem lookupC_eq_none_iff (c : Cache) (n : String) :
    lookupC c n = none ↔ n ∉ keysC c := by
  induction c with
  | nil => simp [lookupC, keysC]
  | cons kv rest ih =>
      obtain ⟨k, d⟩ := kv
      by_cases h : k = n
      · simp [lookupC, keysC, h]
      · simp [lookupC, keysC, h, ih, Ne.symm h]

theorem lookupC_isSome_iff (c : Cache) (n : String) :
    (lookupC c n).isSome = true ↔ n ∈ keysC c := by
  rcases hl : lookupC c n with _ | e
  · simpa [hl] using (lookupC_eq_none_iff c n).mp hl
  · simp only [Option.isSome_some, true_iff]
    by_contra hmem
    rw [(lookupC_eq_none_iff c n).mpr hmem] at hl
    exact Option.noConfusion hl

theorem insertC_of_not_mem (c : Cache) (n : String) (e : CacheEntry)
    (h : n ∉ keysC c) : insertC c n e = c ++ [(n, e)] := by
  induction c with
  | nil => simp [insertC]
  | cons kv rest ih =>
      obtain ⟨k, d⟩ := kv
      simp only [keysC, List.map_cons, List.mem_cons] at h
      push_neg at h
      simp [insertC, Ne.symm h.1, ih h.2]

theorem length_insertC_of_mem (c : Cache) (n : String) (e : CacheEntry)
    (h : n ∈ keysC c) : (insertC c n e).length = c.length := by
  induction c with
  | nil => simp [keysC] at h
  | cons kv rest ih =>
      obtain ⟨k, d⟩ := kv
      by_cases hk : k = n
      · simp [insertC, hk]
      · simp only [keysC, List.map_cons, List.mem_cons] at h
        rcases h with h | h
        · exact absurd h.symm hk
        · simp [insertC, hk, ih h]

theorem keysC_insertC_of_mem (c : Cache) (n : String) (e : CacheEntry)
    (h : n ∈ keysC c) : keysC (insertC c n e) = keysC c := by
  induction c with
  | nil => simp [keysC] at h
  | cons kv rest ih =>
      obtain ⟨k, d⟩ := kv
      by_cases hk : k = n
      · simp [insertC, hk, keysC]
      · simp only [keysC, List.map_cons, List.mem_cons] at h
        rcases h with h | h
        · exact absurd h.symm hk
        · simpa [insertC, hk, keysC] using ih h

theorem eraseC_of_not_mem (c : Cache) (n : String) (h : n ∉ keysC c) :
    eraseC c n = c := by
  unfold eraseC
  apply List.filter_eq_self.mpr
  intro p hp
  have hne : p.1 ≠ n := fun he => h (he ▸ List.mem_map_of_mem Prod.fst hp)
  simp [hne]

theorem lookupC_eraseC_self (c : Cache) (n : String) :
    lookupC (eraseC c n) n = none := by
  induction c with
  | nil => simp [eraseC, lookupC]
  | cons kv rest ih =>
      obtain ⟨k, d⟩ := kv
      by_cases h : k = n
      · simpa [eraseC, List.filter_cons, h] using ih
      · simpa [eraseC, List.filter_cons, h, lookupC] using ih

theorem lookupC_eraseC_ne (c : Cache) (n m : String) (hnm : m ≠ n) :
    lookupC (eraseC c n) m = lookupC c m := by
  induction c with
  | nil => simp [eraseC]
  | cons kv rest ih =>
      obtain ⟨k, d⟩ := kv
      by_cases h : k = n
      · subst h
        simpa [eraseC, List.filter_cons, lookupC, Ne.symm hnm] using ih
      · by_cases h2 : k = m
        · simp [eraseC, List.filter_cons, h, lookupC, h2, hnm]
        · simpa [eraseC, List.filter_cons, h, lookupC, h2] using ih

theorem keysC_eraseC (c : Cache) (n : String) :
    keysC (eraseC c n) = (keysC c).filter (fun k => k ≠ n) := by
  induction c with
  | nil => simp [eraseC, keysC]
  | cons kv rest ih =>
      obtain ⟨k, d⟩ := kv
      by_cases h : k = n
      · simpa [eraseC, List.filter_cons, h, keysC] using ih
      · simpa [eraseC, List.filter_cons, h, keysC] using ih

theorem nodup_keysC_eraseC (c : Cache) (n : String)
    (h : (keysC c).Nodup) : (keysC (eraseC c n)).Nodup := by
  rw [keysC_eraseC]
  exact h.filter _

theorem length_eraseC_of_mem (c : Cache) (n : String)
    (hnd : (keysC c).Nodup) (h : n ∈ keysC c) :
    (eraseC c n).length + 1 = c.length := by
  induction c with
  | nil => simp [keysC] at h
  | cons kv rest ih =>
      obtain ⟨k, d⟩ := kv
      simp only [keysC, List.map_cons, List.nodup_cons] at hnd
      by_cases hk : k = n
      · subst hk
        have he : eraseC ((k, d) :: rest) k = eraseC rest k := by
          simp [eraseC, List.filter_cons]
        rw [he, eraseC_of_not_mem rest k hnd.1]
        simp
      · simp only [keysC, List.map_cons, List.mem_cons] at h
        rcases h with h | h
        · exact absurd h.symm hk
        · have hrec := ih hnd.2 h
          have he : eraseC ((k, d) :: rest) n = (k, d) :: eraseC rest n := by
            simp [eraseC, List.filter_cons, hk]
          rw [he, List.length_cons, List.length_cons]
          omega

theorem nodup_keysC_insertC (c : Cache) (n : String) (e : CacheEntry)
    (h : (keysC c).Nodup) : (keysC (insertC c n e)).Nodup := by
  by_cases hm : n ∈ keysC c
  · rwa [keysC_insertC_of_mem c n e hm]
  · rw [insertC_of_not_mem c n e hm]
    have : keysC (c ++ [(n, e)]) = keysC c ++ [n] := by simp [keysC]
    rw [this]
    simpa [List.nodup_append] using ⟨h, hm⟩

/-! ### Lemmas about the eviction scan -/

namespace CachedDatastore

theorem evictFold_ne_none (c : Cache) (a : String × Nat) :
    c.foldl evictStep (some a) ≠ none := by
  induction c generalizing a with
  | nil => simp
  | cons kv rest ih =>
      obtain ⟨k, ts⟩ := a
      by_cases hlt : kv.2.created_at < ts
      · simpa [List.foldl_cons, evictStep, hlt] using
          ih (kv.1, kv.2.created_at)
      · simpa [List.foldl_cons, evictStep, hlt] using ih (k, ts)

theorem evictScan_eq_none_iff (c : Cache) : evictScan c = none ↔ c = [] := by
  constructor
  · intro h
    cases c with
    | nil => rfl
    | cons kv rest =>
        exact absurd
          (by simpa [evictScan, List.foldl_cons, evictStep] using h)
          (evictFold_ne_none rest (kv.1, kv.2.created_at))
  · intro h
    subst h
    rfl

theorem evictFold_spec (c : Cache) :
    ∀ (k0 : String) (ts0 : Nat) (k : String) (ts : Nat),
      c.foldl evictStep (some (k0, ts0)) = some (k, ts) →
      ts ≤ ts0 ∧ (∀ p ∈ c, ts ≤ p.2.created_at) ∧
        ((k, ts) = (k0, ts0) ∨ ∃ e, (k, e) ∈ c ∧ e.created_at = ts) := by
  induction c with
  | nil =>
      intro k0 ts0 k ts h
      simp only [List.foldl_nil, Option.some.injEq, Prod.mk.injEq] at h
      exact ⟨le_of_eq h.2.symm, by simp, Or.inl (by simp [h.1, h.2])⟩
  | cons kv rest ih =>
      obtain ⟨kk, ke⟩ := kv
      intro k0 ts0 k ts h
      rw [List.foldl_cons] at h
      by_cases hlt : ke.created_at < ts0
      · rw [show evictStep (some (k0, ts0)) (kk, ke) =
              some (kk, ke.created_at) by simp [evictStep, hlt]] at h
        obtain ⟨h1, h2, h3⟩ := ih kk ke.created_at k ts h
        refine ⟨le_trans h1 (le_of_lt hlt), ?_, ?_⟩
        · intro p hp
          rcases List.mem_cons.mp hp with hp | hp
          · exact hp ▸ h1
          · exact h2 p hp
        · rcases h3 with h3 | ⟨e, he, hts⟩
          · obtain ⟨hk, hts⟩ := (Prod.mk.injEq _ _ _ _).mp h3
            subst hk
            exact Or.inr ⟨ke, List.mem_cons_self _ _, hts.symm⟩
          · exact Or.inr ⟨e, List.mem_cons_of_mem _ he, hts⟩
      · rw [show evictStep (some (k0, ts0)) (kk, ke) = some (k0, ts0) by
              simp [evictStep, hlt]] at h
        obtain ⟨h1, h2, h3⟩ := ih k0 ts0 k ts h
        refine ⟨h1, ?_, ?_⟩
        · intro p hp
          rcases List.mem_cons.mp hp with hp | hp
          · subst hp
            simp only
            omega
          · exact h2 p hp
        · rcases h3 with h3 | ⟨e, he, hts⟩
          · exact Or.inl h3
          · exact Or.inr ⟨e, List.mem_cons_of_mem _ he, hts⟩

/-- The victim found by the eviction scan is an entry of the cache with the
minimal insertion timestamp. -/
theorem evictScan_spec (c : Cache) (k : String) (ts : Nat)
    (h : evictScan c = some (k, ts)) :
    (∃ e, (k, e) ∈ c ∧ e.created_at = ts) ∧ ∀ p ∈ c, ts ≤ p.2.created_at := by
  cases c with
  | nil => simp [evictScan] at h
  | cons kv rest =>
      rw [evictScan, List.foldl_cons,
        show evictStep none kv = some (kv.1, kv.2.created_at) from rfl] at h
      obtain ⟨h1, h2, h3⟩ := evictFold_spec rest kv.1 kv.2.created_at k ts h
      constructor
      · rcases h3 with h3 | ⟨e, he, hts⟩
        · obtain ⟨hk, hts⟩ := (Prod.mk.injEq _ _ _ _).mp h3
          exact ⟨kv.2, by simp [hk], hts.symm⟩
        · exact ⟨e, List.mem_cons_of_mem _ he, hts⟩
      · intro p hp
        rcases List.mem_cons.mp hp with hp | hp
        · exact hp ▸ h1
        · exact h2 p hp

theorem evictFold_keep (rest : Cache) (k0 : String) (ts0 : Nat)
    (h : ∀ p ∈ rest, ts0 ≤ p.2.created_at) :
    rest.foldl evictStep (some (k0, ts0)) = some (k0, ts0) := by
  induction rest with
  | nil => rfl
  | cons kv tl ih =>
      have h0 : ¬kv.2.created_at < ts0 :=
        not_lt.mpr (h kv (List.mem_cons_self _ _))
      rw [List.foldl_cons,
        show evictStep (some (k0, ts0)) kv = some (k0, ts0) by
          simp [evictStep, h0]]
      exact ih (fun p hp => h p (List.mem_cons_of_mem _ hp))

/-- When the head of the cache has the (weakly) smallest insertion
timestamp, the eviction scan selects it. -/
theorem evictScan_head (k0 : String) (e0 : CacheEntry) (rest : Cache)
    (h : ∀ p ∈ rest, e0.created_at ≤ p.2.created_at) :
    evictScan ((k0, e0) :: rest) = some (k0, e0.created_at) := by
  rw [evictScan, List.foldl_cons,
    show evictStep none (k0, e0) = some (k0, e0.created_at) from rfl]
  exact evictFold_keep rest k0 e0.created_at h

/-! ### Characterization of `_update_cache` -/

theorem updateCache_of_mem (s : CachedState) (name : String) (ds : Dataset)
    (b : Bool) (e0 : CacheEntry) (h : lookupC s.cache name = some e0) :
    updateCache s name ds b =
      .ok { s with cache := insertC s.cache name ⟨ds, s.clock, b⟩,
                   clock := s.clock + 1 } := by
  rw [updateCache, if_neg]
  intro hc
  rw [h] at hc
  simp at hc

theorem updateCache_of_not_full (s : CachedState) (name : String)
    (ds : Dataset) (b : Bool) (h : s.cache.length ≠ s.cache_size) :
    updateCache s name ds b =
      .ok { s with cache := insertC s.cache name ⟨ds, s.clock, b⟩,
                   clock := s.clock + 1 } := by
  rw [updateCache, if_neg]
  intro hc
  exact h hc.2

theorem updateCache_full_fresh (s : CachedState) (name : String)
    (ds : Dataset) (b : Bool) (k : String) (ts : Nat)
    (h1 : lookupC s.cache name = none) (h2 : s.cache.length = s.cache_size)
    (h3 : evictScan s.cache = some (k, ts)) :
    updateCache s name ds b =
      .ok { s with cache := insertC (eraseC s.cache k) name ⟨ds, s.clock, b⟩,
                   clock := s.clock + 1 } := by
  rw [updateCache, if_pos (by simp [h1, h2]), h3]

theorem updateCache_ok_shape (s : CachedState) (name : String) (ds : Dataset)
    (b : Bool) (s' : CachedState)
    (h : updateCache s name ds b = .ok s') :
    ∃ c, s'.cache = insertC c name ⟨ds, s.clock, b⟩ ∧
      s'.clock = s.clock + 1 ∧ s'.store = s.store ∧
      s'.cache_size = s.cache_size := by
  rw [updateCache] at h
  by_cases hc : (lookupC s.cache name).isNone ∧ s.cache.length = s.cache_size
  · rw [if_pos hc] at h
    rcases h3 : evictScan s.cache with _ | ⟨k, ts⟩
    · rw [h3] at h
      exact absurd h (by simp)
    · rw [h3] at h
      simp only [Except.ok.injEq] at h
      exact ⟨eraseC s.cache k, by rw [← h], by rw [← h], by rw [← h],
        by rw [← h]⟩
  · rw [if_neg hc] at h
    simp only [Except.ok.injEq] at h
    exact ⟨s.cache, by rw [← h], by rw [← h], by rw [← h], by rw [← h]⟩

theorem updateCache_error_iff (s : CachedState) (name : String)
    (ds : Dataset) (b : Bool) (e : Err) :
    updateCache s name ds b = .error e ↔
      e = .keyErrorNone ∧ s.cache = [] ∧ s.cache_size = 0 := by
  constructor
  · intro h
    rw [updateCache] at h
    by_cases hc : (lookupC s.cache name).isNone ∧
        s.cache.length = s.cache_size
    · rw [if_pos hc] at h
      rcases h3 : evictScan s.cache with _ | ⟨k, ts⟩
      · have hnil := (evictScan_eq_none_iff s.cache).mp h3
        rw [h3] at h
        simp only [Except.error.injEq] at h
        refine ⟨h.symm, hnil, ?_⟩
        rw [← hc.2, hnil]
        rfl
      · rw [h3] at h
        exact absurd h (by simp)
    · rw [if_neg hc] at h
      exact absurd h (by simp)
  · rintro ⟨he, hnil, hsz⟩
    subst he
    rw [updateCache, if_pos (by simp [hnil, hsz, lookupC]),
      (evictScan_eq_none_iff s.cache).mpr hnil]

/-- With a cache size of at least one, `_update_cache` always succeeds. -/
theorem updateCache_ok_of_pos (s : CachedState) (name : String)
    (ds : Dataset) (b : Bool) (hsz : 1 ≤ s.cache_size) :
    ∃ s', updateCache s name ds b = .ok s' := by
  rcases h : updateCache s name ds b with e | s'
  · obtain ⟨-, -, h0⟩ := (updateCache_error_iff s name ds b e).mp h
    omega
  · exact ⟨s', rfl⟩

/-- The cache-miss path of `checkout` always invokes the backing store: its
call log is never empty. -/
theorem checkoutMiss_calls_ne_nil (s : CachedState) (name : String)
    (version : Option Nat) : (checkoutMiss s name version).2.2 ≠ [] := by
  rcases hB : HISTOREDatastore.checkout s.store name version with e | ds
  · simp [checkoutMiss, hB]
  · rcases version with _ | v
    · rcases hU : updateCache s name ds true with e | s' <;>
        simp [checkoutMiss, hB, hU]
    · rcases hL : HISTOREDatastore.last_version s.store name with e | lv
      · simp [checkoutMiss, hB, hL]
      · rcases hU : updateCache s name ds (v == lv) with e | s' <;>
          simp [checkoutMiss, hB, hL, hU]

end CachedDatastore

/-! ### Claim theorems -/

/-- C1: for every cached entry `e` for dataset name `n`, a `checkout(n)`
with no version is served from the cache — returning the cached snapshot,
leaving the state untouched and making no backing-store call — if and only
if `e.is_last` is true; and a `checkout(n, v)` with an explicit version `v`
is served from the cache if and only if `v` equals the cached snapshot's
version.  In particular a request for the cached version is a hit while a
request for any other version delegates even when `is_last` is true. -/
theorem C1_cache_hit_iff (s : CachedState) (n : String) (e : CacheEntry)
    (h : lookupC s.cache n = some e) :
    (CachedDatastore.checkout s n none = (.ok e.ds, s, []) ↔
      e.is_last = true) ∧
    (∀ v : Nat,
      CachedDatastore.checkout s n (some v) = (.ok e.ds, s, []) ↔
        v = e.ds.version) := by
  constructor
  · rw [show CachedDatastore.checkout s n none =
        (if e.matches_version none then (.ok e.ds, s, [])
         else CachedDatastore.checkoutMiss s n none) by
      simp [CachedDatastore.checkout, h]]
    by_cases hb : e.is_last
    · simp [CacheEntry.matches_version, hb]
    · rw [if_neg (by simp [CacheEntry.matches_version, hb])]
      simp only [hb, Bool.false_eq_true, iff_false]
      intro heq
      exact CachedDatastore.checkoutMiss_calls_ne_nil s n none
        (congrArg (fun t => t.2.2) heq)
  · intro v
    rw [show CachedDatastore.checkout s n (some v) =
        (if e.matches_version (some v) then (.ok e.ds, s, [])
         else CachedDatastore.checkoutMiss s n (some v)) by
      simp [CachedDatastore.checkout, h]]
    by_cases hv : v = e.ds.version
    · simp [CacheEntry.matches_version, hv]
    · rw [if_neg (by simp [CacheEntry.matches_version, hv])]
      simp only [hv, iff_false]
      intro heq
      exact CachedDatastore.checkoutMiss_calls_ne_nil s n (some v)
        (congrArg (fun t => t.2.2) heq)

/-- Witness for C1 at a concrete state with a cached `is_last` entry. -/
theorem C1_cache_hit_iff_witness :
    lookupC sW1.cache "a" = some eW1 ∧
    (CachedDatastore.checkout sW1 "a" none = (.ok eW1.ds, sW1, []) ↔
      eW1.is_last = true) ∧
    (CachedDatastore.checkout sW1 "a" (some 7) = (.ok eW1.ds, sW1, []) ↔
      7 = eW1.ds.version) :=
  ⟨by decide, (C1_cache_hit_iff sW1 "a" eW1 (by decide)).1,
    (C1_cache_hit_iff sW1 "a" eW1 (by decide)).2 7⟩

/-- C3: with `cache_size = 0` the claim fails — the cache-update path of
`_update_cache` runs its eviction branch on an empty cache and
`del self._cache[None]` raises a `KeyError`, so a commit (and a cache-miss
checkout) whose backing-store call succeeds nevertheless raises an error
the backing store did not raise.  This evaluates the code at the failing
input: the backing store has committed the new version, yet the wrapper
errors with `keyErrorNone`. -/
theorem C3_cache_size_zero_keyerror :
    CachedDatastore.commit sW3 7 "a" none =
      (.error .keyErrorNone,
        ⟨0, [], [("a", ⟨"idA", [⟨0, 0, 5⟩, ⟨1, 0, 7⟩]⟩)], 1⟩,
        [.commit "a"]) ∧
    CachedDatastore.checkout sW3 "a" none =
      (.error .keyErrorNone, sW3, [.checkout "a" none]) := by
  decide

/-- C8 amended: the `action` argument of `commit` is accepted by
`CachedDatastore.commit` and handed to the backing `HISTOREDatastore`, but
the backing store ignores it — committing with any action value yields
exactly the same snapshot, cache and datastore state as committing with no
action, and no provenance metadata is recorded anywhere. -/
theorem C8_action_ignored (store : BackingState) (df : Nat) (name : String)
    (a : Option Nat) (now : Nat) (s : CachedState) :
    HISTOREDatastore.commit store df name a now =
      HISTOREDatastore.commit store df name none now ∧
    CachedDatastore.commit s df name a =
      CachedDatastore.commit s df name none := by
  constructor
  · rfl
  · rfl

/-- C8 counterexample: committing with the action description `99` produces
a result and post-state identical to committing with no action at all — the
action description is not stored as provenance metadata for the new version
(it is not stored anywhere). -/
theorem C8_counterexample_action_dropped :
    CachedDatastore.commit sW8 7 "a" (some 99) =
      CachedDatastore.commit sW8 7 "a" none ∧
    HISTOREDatastore.commit sW8.store 7 "a" (some 99) 3 =
      HISTOREDatastore.commit sW8.store 7 "a" none 3 := by
  decide

/-- C10: `HISTOREDatastore.metadata` raises only for an unknown dataset
name; for an existing dataset it returns a metadata store for every
explicitly given version number — the version only selects the annotation
directory and is never validated against the archive's snapshots — and for
the omitted version it returns the store of the last snapshot. -/
theorem C10_metadata_version_unchecked (basedir : String)
    (store : BackingState) (name : String) :
    (lookupA store name = none →
      ∀ v : Option Nat,
        HISTOREDatastore.metadata basedir store name v =
          .error (.notFound name)) ∧
    (∀ arch, lookupA store name = some arch →
      (∀ v : Nat,
        HISTOREDatastore.metadata basedir store name (some v) =
          .ok ⟨HISTOREDatastore.metaPath basedir arch.ident v⟩) ∧
      (arch.snaps ≠ [] →
        ∃ h, HISTOREDatastore.metadata basedir store name none = .ok h)) := by
  constructor
  · intro h v
    simp [HISTOREDatastore.metadata, h]
  · intro arch h
    constructor
    · intro v
      simp [HISTOREDatastore.metadata, h]
    · intro hne
      rcases hl : arch.snaps.getLast? with _ | sn
      · exact absurd (List.getLast?_eq_none_iff.mp hl) hne
      · exact ⟨⟨HISTOREDatastore.metaPath basedir arch.ident sn.version⟩,
          by simp [HISTOREDatastore.metadata, h, hl]⟩

/-- Dictionary deletion on the backing map removes the binding of the key. -/
theorem lookupA_eraseA_self (st : BackingState) (n : String) :
    lookupA (eraseA st n) n = none := by
  induction st with
  | nil => simp [eraseA, lookupA]
  | cons kv rest ih =>
      obtain ⟨k, a⟩ := kv
      by_cases h : k = n
      · simpa [eraseA, List.filter_cons, h] using ih
      · simpa [eraseA, List.filter_cons, h, lookupA] using ih

/-- C4 counterexample: a `drop` whose backing-store delegation fails with
`NotFound` does NOT leave the cache as it was — the wrapper deletes the
cache entry for the name before delegating, so after the failed call the
entry for `a` is gone. -/
theorem C4_counterexample_drop_mutates_cache :
    (CachedDatastore.drop sW4 "a").1 = .error (.notFound "a") ∧
    (CachedDatastore.drop sW4 "a").2.1.cache = [] ∧
    sW4.cache ≠ [] := by
  decide

/-- C4 amended: an error raised by the delegated backing-store call
propagates unchanged to the caller for all four operations, and for
`checkout`, `commit` and `load` the state (cache included) after the failed
call is exactly the state before it; `drop`, however, removes the cache
entry for the name before delegating, so a failed drop leaves the cache
with that entry erased (everything else untouched). -/
theorem C4_error_propagation (s : CachedState) :
    (∀ (n : String) (v : Option Nat) (e : Err),
      (∀ ent, lookupC s.cache n = some ent →
        ent.matches_version v = false) →
      HISTOREDatastore.checkout s.store n v = .error e →
      (CachedDatastore.checkout s n v).1 = .error e ∧
      (CachedDatastore.checkout s n v).2.1 = s) ∧
    (∀ (df : Nat) (n : String) (a : Option Nat) (e : Err),
      HISTOREDatastore.commit s.store df n a s.clock = .error e →
      (CachedDatastore.commit s df n a).1 = .error e ∧
      (CachedDatastore.commit s df n a).2.1 = s) ∧
    (∀ (df : Nat) (n i : String) (e : Err),
      HISTOREDatastore.load s.store df n i s.clock = .error e →
      (CachedDatastore.load s df n i).1 = .error e ∧
      (CachedDatastore.load s df n i).2.1 = s) ∧
    (∀ (n : String) (e : Err),
      HISTOREDatastore.drop s.store n = .error e →
      (CachedDatastore.drop s n).1 = .error e ∧
      (CachedDatastore.drop s n).2.1 =
        { s with cache := eraseC s.cache n }) := by
  refine ⟨?_, ?_, ?_, ?_⟩
  · intro n v e hmiss hB
    have hdel : CachedDatastore.checkout s n v =
        CachedDatastore.checkoutMiss s n v := by
      rw [CachedDatastore.checkout]
      rcases hl : lookupC s.cache n with _ | ent
      · rfl
      · simp [hmiss ent hl]
    rw [hdel, CachedDatastore.checkoutMiss, hB]
    exact ⟨rfl, rfl⟩
  · intro df n a e hB
    rw [CachedDatastore.commit, hB]
    exact ⟨rfl, rfl⟩
  · intro df n i e hB
    rw [CachedDatastore.load, hB]
    exact ⟨rfl, rfl⟩
  · intro n e hB
    simp [CachedDatastore.drop, hB]

/-- Witness for C4 (amended): at a concrete state, a failed checkout, a
failed commit, a failed load and a failed drop all propagate the backing
error, leaving the cache untouched for the first three and erased of the
dropped name for the fourth. -/
theorem C4_error_propagation_witness :
    ((CachedDatastore.checkout sW4b "c" none).1 = .error (.notFound "c") ∧
      (CachedDatastore.checkout sW4b "c" none).2.1 = sW4b) ∧
    ((CachedDatastore.commit sW4b 9 "c" none).1 = .error (.notFound "c") ∧
      (CachedDatastore.commit sW4b 9 "c" none).2.1 = sW4b) ∧
    ((CachedDatastore.load sW4b 9 "b" "idB2").1 =
        .error (.alreadyExists "b") ∧
      (CachedDatastore.load sW4b 9 "b" "idB2").2.1 = sW4b) ∧
    ((CachedDatastore.drop sW4b "a").1 = .error (.notFound "a") ∧
      (CachedDatastore.drop sW4b "a").2.1 =
        { sW4b with cache := eraseC sW4b.cache "a" }) := by
  refine ⟨?_, ?_, ?_, ?_⟩
  · refine (C4_error_propagation sW4b).1 "c" none (.notFound "c") ?_
      (by decide)
    intro ent hent
    have hnone : lookupC sW4b.cache "c" = none := by decide
    rw [hnone] at hent
    exact Option.noConfusion hent
  · exact (C4_error_propagation sW4b).2.1 9 "c" none (.notFound "c")
      (by decide)
  · exact (C4_error_propagation sW4b).2.2.1 9 "b" "idB2"
      (.alreadyExists "b") (by decide)
  · exact (C4_error_propagation sW4b).2.2.2 "a" (.notFound "a") (by decide)

/-- Successful `CachedDatastore.commit` decomposes into a successful backing
commit followed by a successful cache update. -/
theorem commit_ok_inv (s : CachedState) (df : Nat) (n : String)
    (a : Option Nat) (ds : Dataset) (s' : CachedState) (calls : List BCall)
    (h : CachedDatastore.commit s df n a = (.ok ds, s', calls)) :
    ∃ store',
      HISTOREDatastore.commit s.store df n a s.clock = .ok (ds, store') ∧
      CachedDatastore.updateCache
        { s with store := store', clock := s.clock + 1 } n ds true =
          .ok s' ∧
      calls = [.commit n] := by
  simp only [CachedDatastore.commit] at h
  rcases hB : HISTOREDatastore.commit s.store df n a s.clock with e | p
  · rw [hB] at h
    simp at h
  · obtain ⟨ds0, store'⟩ := p
    rw [hB] at h
    simp only at h
    rcases hU : CachedDatastore.updateCache
        { s with store := store', clock := s.clock + 1 } n ds0 true
      with e | s2
    · rw [hU] at h
      simp at h
    · rw [hU] at h
      simp only [Prod.mk.injEq, Except.ok.injEq] at h
      obtain ⟨h1, h2, h3⟩ := h
      subst h1
      refine ⟨store', rfl, ?_, h3.symm⟩
      rw [hU, h2]

/-- C6: after every successful `commit(df, n)` the cache entry for `n` is
exactly the snapshot returned by the commit, flagged `is_last = true` and
stamped with the cache-insertion time, and an immediately following
`checkout(n)` with no version returns that snapshot from the cache with no
backing-store call and no state change. -/
theorem C6_commit_refreshes_latest (s : CachedState) (df : Nat) (n : String)
    (a : Option Nat) (ds : Dataset) (s' : CachedState) (calls : List BCall)
    (h : CachedDatastore.commit s df n a = (.ok ds, s', calls)) :
    lookupC s'.cache n = some ⟨ds, s.clock + 1, true⟩ ∧
    CachedDatastore.checkout s' n none = (.ok ds, s', []) := by
  obtain ⟨store', hB, hU, hcalls⟩ := commit_ok_inv s df n a ds s' calls h
  obtain ⟨c, hcache, hclock, hstore, hsize⟩ :=
    CachedDatastore.updateCache_ok_shape _ _ _ _ _ hU
  have hl : lookupC s'.cache n = some ⟨ds, s.clock + 1, true⟩ := by
    rw [hcache]
    exact lookupC_insertC_self c n _
  refine ⟨hl, ?_⟩
  rw [CachedDatastore.checkout, hl]
  simp [CacheEntry.matches_version]

/-- Witness for C6 at a concrete successful commit. -/
theorem C6_commit_refreshes_latest_witness :
    lookupC (⟨1, [("a", ⟨⟨1, 0, 7⟩, 1, true⟩)],
        [("a", ⟨"idA", [⟨0, 0, 5⟩, ⟨1, 0, 7⟩]⟩)], 2⟩ :
          CachedState).cache "a" = some ⟨⟨1, 0, 7⟩, 1, true⟩ ∧
    CachedDatastore.checkout
        ⟨1, [("a", ⟨⟨1, 0, 7⟩, 1, true⟩)],
          [("a", ⟨"idA", [⟨0, 0, 5⟩, ⟨1, 0, 7⟩]⟩)], 2⟩ "a" none =
      (.ok ⟨1, 0, 7⟩,
        ⟨1, [("a", ⟨⟨1, 0, 7⟩, 1, true⟩)],
          [("a", ⟨"idA", [⟨0, 0, 5⟩, ⟨1, 0, 7⟩]⟩)], 2⟩, []) :=
  C6_commit_refreshes_latest sW6 7 "a" none ⟨1, 0, 7⟩
    ⟨1, [("a", ⟨⟨1, 0, 7⟩, 1, true⟩)],
      [("a", ⟨"idA", [⟨0, 0, 5⟩, ⟨1, 0, 7⟩]⟩)], 2⟩
    [.commit "a"] (by decide)

/-- C7: after a successful `drop(n)` no cache entry for `n` remains, every
subsequent `checkout(n, ...)` fails with the dataset-unknown error and
leaves the state unchanged, and a second `drop(n)` also fails with the
dataset-unknown error — drop is not idempotent on the durable layer. -/
theorem C7_drop_semantics (s : CachedState) (n : String) (s' : CachedState)
    (calls : List BCall)
    (h : CachedDatastore.drop s n = (.ok (), s', calls)) :
    lookupC s'.cache n = none ∧
    (∀ v : Option Nat,
      (CachedDatastore.checkout s' n v).1 = .error (.notFound n) ∧
      (CachedDatastore.checkout s' n v).2.1 = s') ∧
    (CachedDatastore.drop s' n).1 = .error (.notFound n) := by
  simp only [CachedDatastore.drop] at h
  rcases hD : HISTOREDatastore.drop s.store n with e | store'
  · rw [hD] at h
    simp at h
  · rw [hD] at h
    simp only [Prod.mk.injEq] at h
    have hs' : s' = { s with cache := eraseC s.cache n, store := store' } :=
      h.2.1.symm
    have hstore' : store' = eraseA s.store n := by
      rcases hA : lookupA s.store n with _ | arch
      · simp only [HISTOREDatastore.drop, hA] at hD
        exact absurd hD (by simp)
      · simp only [HISTOREDatastore.drop, hA, Except.ok.injEq] at hD
        exact hD.symm
    have hAnone : lookupA s'.store n = none := by
      rw [hs']
      simp only
      rw [hstore']
      exact lookupA_eraseA_self s.store n
    have hCnone : lookupC s'.cache n = none := by
      rw [hs']
      exact lookupC_eraseC_self s.cache n
    refine ⟨hCnone, ?_, ?_⟩
    · intro v
      have hBe : HISTOREDatastore.checkout s'.store n v =
          .error (.notFound n) := by
        simp [HISTOREDatastore.checkout, hAnone]
      simp [CachedDatastore.checkout, hCnone,
        CachedDatastore.checkoutMiss, hBe]
    · have hDe : HISTOREDatastore.drop s'.store n = .error (.notFound n) := by
        simp [HISTOREDatastore.drop, hAnone]
      simp [CachedDatastore.drop, hDe]

/-- Witness for C7 at a concrete successful drop. -/
theorem C7_drop_semantics_witness :
    lookupC (⟨1, [], [], 1⟩ : CachedState).cache "a" = none ∧
    ((CachedDatastore.checkout ⟨1, [], [], 1⟩ "a" (some 0)).1 =
        .error (.notFound "a") ∧
      (CachedDatastore.checkout ⟨1, [], [], 1⟩ "a" (some 0)).2.1 =
        ⟨1, [], [], 1⟩) ∧
    (CachedDatastore.drop ⟨1, [], [], 1⟩ "a").1 = .error (.notFound "a") :=
  ⟨(C7_drop_semantics sW7 "a" ⟨1, [], [], 1⟩ [.drop "a"] (by decide)).1,
    (C7_drop_semantics sW7 "a" ⟨1, [], [], 1⟩ [.drop "a"]
      (by decide)).2.1 (some 0),
    (C7_drop_semantics sW7 "a" ⟨1, [], [], 1⟩ [.drop "a"] (by decide)).2.2⟩

/-- C9: a `checkout(n, v)` that finds a cached entry for `n` not matching
`v` replaces the single cache slot for `n` with the newly checked-out
snapshot, with `is_last` computed as "`v` is unset, or `v` equals the
backing store's last version of `n`"; in particular checking out a
non-latest explicit version installs an entry with `is_last = false`, so a
following `checkout(n)` with no version delegates to the backing store
again. -/
theorem C9_checkout_replaces_slot (s : CachedState) (n : String)
    (v : Option Nat) (ent : CacheEntry) (ds : Dataset) (lv : Nat)
    (hc : lookupC s.cache n = some ent)
    (hmiss : ent.matches_version v = false)
    (hB : HISTOREDatastore.checkout s.store n v = .ok ds)
    (hL : HISTOREDatastore.last_version s.store n = .ok lv) :
    ((CachedDatastore.checkout s n v).1 = .ok ds ∧
      (CachedDatastore.checkout s n v).2.1 =
        { s with
            cache := insertC s.cache n
              ⟨ds, s.clock,
                match v with | none => true | some x => x == lv⟩,
            clock := s.clock + 1 }) ∧
    (∀ x : Nat, v = some x → (x == lv) = false →
      (CachedDatastore.checkout
        { s with
            cache := insertC s.cache n ⟨ds, s.clock, false⟩,
            clock := s.clock + 1 } n none).2.2 ≠ []) := by
  constructor
  · have hdel : CachedDatastore.checkout s n v =
        CachedDatastore.checkoutMiss s n v := by
      rw [CachedDatastore.checkout, hc]
      simp [hmiss]
    rcases v with _ | x
    · rw [hdel]
      simp [CachedDatastore.checkoutMiss, hB,
        CachedDatastore.updateCache_of_mem s n ds true ent hc]
    · rw [hdel]
      simp [CachedDatastore.checkoutMiss, hB, hL,
        CachedDatastore.updateCache_of_mem s n ds (x == lv) ent hc]
  · intro x hv hxl
    set s2 : CachedState :=
      { s with
          cache := insertC s.cache n ⟨ds, s.clock, false⟩,
          clock := s.clock + 1 } with hs2
    have hl2 : lookupC s2.cache n = some ⟨ds, s.clock, false⟩ :=
      lookupC_insertC_self s.cache n _
    simp only [CachedDatastore.checkout, hl2]
    rw [if_neg (by simp [CacheEntry.matches_version])]
    exact CachedDatastore.checkoutMiss_calls_ne_nil s2 n none

/-- Witness for C9: checking out the non-latest version 0 of `a` replaces
the cached latest entry by an `is_last = false` entry, and the following
no-version checkout delegates. -/
theorem C9_checkout_replaces_slot_witness :
    ((CachedDatastore.checkout sW9 "a" (some 0)).1 = .ok ⟨0, 0, 5⟩ ∧
      (CachedDatastore.checkout sW9 "a" (some 0)).2.1 =
        { sW9 with
            cache := insertC sW9.cache "a" ⟨⟨0, 0, 5⟩, sW9.clock, false⟩,
            clock := sW9.clock + 1 }) ∧
    (CachedDatastore.checkout
        { sW9 with
            cache := insertC sW9.cache "a" ⟨⟨0, 0, 5⟩, sW9.clock, false⟩,
            clock := sW9.clock + 1 } "a" none).2.2 ≠ [] :=
  ⟨(C9_checkout_replaces_slot sW9 "a" (some 0) ⟨⟨1, 1, 6⟩, 0, true⟩
      ⟨0, 0, 5⟩ 1 (by decide) (by decide) (by decide) (by decide)).1,
    (C9_checkout_replaces_slot sW9 "a" (some 0) ⟨⟨1, 1, 6⟩, 0, true⟩
      ⟨0, 0, 5⟩ 1 (by decide) (by decide) (by decide) (by decide)).2
      0 rfl (by decide)⟩

/-- The keys of a freshly filled cache are the inserted names, in order. -/
theorem keysC_entriesFrom (ds : Dataset) (ns : List String) :
    ∀ c : Nat, keysC (entriesFrom ds c ns) = ns := by
  induction ns with
  | nil => intro c; rfl
  | cons n rest ih =>
      intro c
      have hrec := ih (c + 1)
      simp only [keysC] at hrec ⊢
      simp [entriesFrom, hrec]

/-- A freshly filled cache has one entry per inserted name. -/
theorem length_entriesFrom (ds : Dataset) (ns : List String) :
    ∀ c : Nat, (entriesFrom ds c ns).length = ns.length := by
  induction ns with
  | nil => intro c; rfl
  | cons n rest ih =>
      intro c
      simp [entriesFrom, ih (c + 1)]

/-- Entries of a freshly filled cache carry insertion timestamps at least
the starting clock. -/
theorem entriesFrom_created_at_ge (ds : Dataset) (ns : List String) :
    ∀ c : Nat, ∀ p ∈ entriesFrom ds c ns, c ≤ p.2.created_at := by
  induction ns with
  | nil =>
      intro c p hp
      simp [entriesFrom] at hp
  | cons n rest ih =>
      intro c p hp
      rcases List.mem_cons.mp (by simpa [entriesFrom] using hp) with hp1 | hp1
      · subst hp1
        simp
      · exact le_trans (Nat.le_succ c) (ih (c + 1) p hp1)

/-- Filling an empty-enough cache with fresh, pairwise distinct names never
evicts: each insertion appends an entry stamped with the next clock tick. -/
theorem updateMany_fill (ds : Dataset) (names : List String) :
    ∀ s : CachedState, names.Nodup →
      (∀ n ∈ names, n ∉ keysC s.cache) →
      s.cache.length + names.length ≤ s.cache_size →
      updateMany ds s names =
        .ok { s with
              cache := (s.cache ++ entriesFrom ds s.clock names),
              clock := s.clock + names.length } := by
  induction names with
  | nil =>
      intro s _ _ _
      simp [updateMany, entriesFrom]
  | cons n rest ih =>
      intro s hnd hfresh hlen
      have hn : n ∉ keysC s.cache := hfresh n (List.mem_cons_self _ _)
      have hne : s.cache.length ≠ s.cache_size := by
        simp only [List.length_cons] at hlen
        omega
      have hins : insertC s.cache n ⟨ds, s.clock, true⟩ =
          s.cache ++ [(n, ⟨ds, s.clock, true⟩)] :=
        insertC_of_not_mem _ _ _ hn
      have hstep : CachedDatastore.updateCache s n ds true =
          .ok { s with
                cache := (s.cache ++ [(n, ⟨ds, s.clock, true⟩)]),
                clock := s.clock + 1 } := by
        rw [CachedDatastore.updateCache_of_not_full s n ds true hne, hins]
      have hrun : updateMany ds s (n :: rest) =
          updateMany ds
            { s with
              cache := (s.cache ++ [(n, ⟨ds, s.clock, true⟩)]),
              clock := s.clock + 1 } rest := by
        simp [updateMany, hstep]
      rw [hrun]
      have hfresh1 : ∀ m ∈ rest,
          m ∉ keysC (s.cache ++ [(n, (⟨ds, s.clock, true⟩ : CacheEntry))]) := by
        intro m hm hmem
        simp only [keysC, List.map_append, List.map_cons, List.map_nil,
          List.mem_append, List.mem_singleton] at hmem
        rcases hmem with h1 | h1
        · exact hfresh m (List.mem_cons_of_mem _ hm) h1
        · exact (List.nodup_cons.mp hnd).1 (h1 ▸ hm)
      have hlen1 :
          (s.cache ++ [(n, (⟨ds, s.clock, true⟩ : CacheEntry))]).length +
            rest.length ≤ s.cache_size := by
        simp only [List.length_append, List.length_cons, List.length_nil]
        simp only [List.length_cons] at hlen
        omega
      have hrec := ih
        { s with
          cache := (s.cache ++ [(n, ⟨ds, s.clock, true⟩)]),
          clock := s.clock + 1 } (List.nodup_cons.mp hnd).2 hfresh1 hlen1
      rw [hrec]
      simp only [Except.ok.injEq, CachedState.mk.injEq]
      refine ⟨trivial, ?_, trivial, ?_⟩
      · show (s.cache ++ [(n, (⟨ds, s.clock, true⟩ : CacheEntry))]) ++
            entriesFrom ds (s.clock + 1) rest =
          s.cache ++ entriesFrom ds s.clock (n :: rest)
        rw [List.append_assoc]
        rfl
      · show s.clock + 1 + rest.length = s.clock + (n :: rest).length
        simp only [List.length_cons]
        omega

/-- `updateMany` over an appended list runs the two halves in sequence. -/
theorem updateMany_append (ds : Dataset) (xs ys : List String) :
    ∀ s : CachedState, updateMany ds s (xs ++ ys) =
      match updateMany ds s xs with
      | .error e => .error e
      | .ok s' => updateMany ds s' ys := by
  induction xs with
  | nil => intro s; rfl
  | cons x xt ih =>
      intro s
      rcases hU : CachedDatastore.updateCache s x ds true with e | s1
      · simp [updateMany, hU]
      · simp only [List.cons_append, updateMany, hU]
        exact ih s1

/-- `_update_cache` preserves the cache invariant: one entry per name, at
most `N` entries. -/
theorem updateCache_preserves_inv (N : Nat) (s : CachedState) (name : String)
    (ds : Dataset) (b : Bool) (s' : CachedState) (hinv : CacheInv N s)
    (h : CachedDatastore.updateCache s name ds b = .ok s') :
    CacheInv N s' := by
  obtain ⟨hN, hnd, hlen⟩ := hinv
  rw [CachedDatastore.updateCache] at h
  by_cases hc : (lookupC s.cache name).isNone ∧ s.cache.length = s.cache_size
  · rw [if_pos hc] at h
    rcases h3 : CachedDatastore.evictScan s.cache with _ | ⟨k, ts⟩
    · rw [h3] at h
      exact absurd h (by simp)
    · rw [h3] at h
      simp only [Except.ok.injEq] at h
      obtain ⟨⟨e, hmem, -⟩, -⟩ := CachedDatastore.evictScan_spec s.cache k ts h3
      have hkmem : k ∈ keysC s.cache := List.mem_map_of_mem Prod.fst hmem
      have hname : name ∉ keysC s.cache := by
        rcases hl : lookupC s.cache name with _ | e2
        · exact (lookupC_eq_none_iff s.cache name).mp hl
        · rw [hl] at hc
          simp at hc
      have hnameE : name ∉ keysC (eraseC s.cache k) := by
        intro hmm
        rw [keysC_eraseC] at hmm
        exact hname (List.mem_filter.mp hmm).1
      have hndE := nodup_keysC_eraseC s.cache k hnd
      have hlenE := length_eraseC_of_mem s.cache k hnd hkmem
      refine ⟨?_, ?_, ?_⟩
      · rw [← h]
        exact hN
      · rw [← h]
        exact nodup_keysC_insertC _ name _ hndE
      · rw [← h]
        simp only
        rw [insertC_of_not_mem _ name _ hnameE, List.length_append]
        simp only [List.length_cons, List.length_nil]
        omega
  · rw [if_neg hc] at h
    simp only [Except.ok.injEq] at h
    by_cases hm : name ∈ keysC s.cache
    · refine ⟨?_, ?_, ?_⟩
      · rw [← h]
        exact hN
      · rw [← h]
        exact nodup_keysC_insertC _ _ _ hnd
      · rw [← h]
        simp only
        rw [length_insertC_of_mem _ _ _ hm]
        exact hlen
    · have hne : s.cache.length ≠ s.cache_size := by
        intro heq
        exact hc ⟨by rw [(lookupC_eq_none_iff s.cache name).mpr hm]; rfl, heq⟩
      refine ⟨?_, ?_, ?_⟩
      · rw [← h]
        exact hN
      · rw [← h]
        exact nodup_keysC_insertC _ _ _ hnd
      · rw [← h]
        simp only
        rw [insertC_of_not_mem _ _ _ hm, List.length_append]
        simp only [List.length_cons, List.length_nil]
        omega

/-- The cache-miss path of `checkout` preserves the cache invariant. -/
theorem checkoutMiss_preserves_inv (N : Nat) (s : CachedState) (n : String)
    (v : Option Nat) (hinv : CacheInv N s) :
    CacheInv N (CachedDatastore.checkoutMiss s n v).2.1 := by
  rcases hB : HISTOREDatastore.checkout s.store n v with e | ds
  · simpa [CachedDatastore.checkoutMiss, hB] using hinv
  · rcases v with _ | x
    · rcases hU : CachedDatastore.updateCache s n ds true with e | s'
      · simpa [CachedDatastore.checkoutMiss, hB, hU] using hinv
      · have hp := updateCache_preserves_inv N s n ds true s' hinv hU
        simpa [CachedDatastore.checkoutMiss, hB, hU] using hp
    · rcases hL : HISTOREDatastore.last_version s.store n with e | lv
      · simpa [CachedDatastore.checkoutMiss, hB, hL] using hinv
      · rcases hU : CachedDatastore.updateCache s n ds (x == lv) with e | s'
        · simpa [CachedDatastore.checkoutMiss, hB, hL, hU] using hinv
        · have hp := updateCache_preserves_inv N s n ds (x == lv) s' hinv hU
          simpa [CachedDatastore.checkoutMiss, hB, hL, hU] using hp

/-- `checkout` preserves the cache invariant. -/
theorem checkout_preserves_inv (N : Nat) (s : CachedState) (n : String)
    (v : Option Nat) (hinv : CacheInv N s) :
    CacheInv N (CachedDatastore.checkout s n v).2.1 := by
  rcases hl : lookupC s.cache n with _ | ent
  · have hmiss := checkoutMiss_preserves_inv N s n v hinv
    simpa [CachedDatastore.checkout, hl] using hmiss
  · by_cases hm : ent.matches_version v
    · simpa [CachedDatastore.checkout, hl, hm] using hinv
    · have hmiss := checkoutMiss_preserves_inv N s n v hinv
      simpa [CachedDatastore.checkout, hl, hm] using hmiss

/-- `commit` preserves the cache invariant. -/
theorem commit_preserves_inv (N : Nat) (s : CachedState) (df : Nat)
    (n : String) (a : Option Nat) (hinv : CacheInv N s) :
    CacheInv N (CachedDatastore.commit s df n a).2.1 := by
  rcases hB : HISTOREDatastore.commit s.store df n a s.clock with e | ⟨ds, st⟩
  · simpa [CachedDatastore.commit, hB] using hinv
  · have hinv1 : CacheInv N { s with store := st, clock := s.clock + 1 } :=
      ⟨hinv.1, hinv.2.1, hinv.2.2⟩
    rcases hU : CachedDatastore.updateCache
        { s with store := st, clock := s.clock + 1 } n ds true with e | s2
    · simpa [CachedDatastore.commit, hB, hU] using hinv1
    · have hp := updateCache_preserves_inv N _ n ds true s2 hinv1 hU
      simpa [CachedDatastore.commit, hB, hU] using hp

/-- `load` preserves the cache invariant. -/
theorem load_preserves_inv (N : Nat) (s : CachedState) (df : Nat)
    (n i : String) (hinv : CacheInv N s) :
    CacheInv N (CachedDatastore.load s df n i).2.1 := by
  rcases hB : HISTOREDatastore.load s.store df n i s.clock with e | ⟨ds, st⟩
  · simpa [CachedDatastore.load, hB] using hinv
  · have hinv1 : CacheInv N { s with store := st, clock := s.clock + 1 } :=
      ⟨hinv.1, hinv.2.1, hinv.2.2⟩
    rcases hU : CachedDatastore.updateCache
        { s with store := st, clock := s.clock + 1 } n ds true with e | s2
    · simpa [CachedDatastore.load, hB, hU] using hinv1
    · have hp := updateCache_preserves_inv N _ n ds true s2 hinv1 hU
      simpa [CachedDatastore.load, hB, hU] using hp

/-- `drop` preserves the cache invariant. -/
theorem drop_preserves_inv (N : Nat) (s : CachedState) (n : String)
    (hinv : CacheInv N s) : CacheInv N (CachedDatastore.drop s n).2.1 := by
  have hnd := nodup_keysC_eraseC s.cache n hinv.2.1
  have hlen : (eraseC s.cache n).length ≤ N :=
    le_trans (List.length_filter_le _ _) hinv.2.2
  rcases hD : HISTOREDatastore.drop s.store n with e | st
  · have : (CachedDatastore.drop s n).2.1 =
        { s with cache := eraseC s.cache n } := by
      simp [CachedDatastore.drop, hD]
    rw [this]
    exact ⟨hinv.1, hnd, hlen⟩
  · have : (CachedDatastore.drop s n).2.1 =
        { s with cache := eraseC s.cache n, store := st } := by
      simp [CachedDatastore.drop, hD]
    rw [this]
    exact ⟨hinv.1, hnd, hlen⟩

/-- Every single operation preserves the cache invariant. -/
theorem applyOp_preserves_inv (N : Nat) (s : CachedState) (op : Op)
    (hinv : CacheInv N s) : CacheInv N (applyOp s op) := by
  cases op with
  | checkout n v => exact checkout_preserves_inv N s n v hinv
  | commit df n a => exact commit_preserves_inv N s df n a hinv
  | load df n i => exact load_preserves_inv N s df n i hinv
  | drop n => exact drop_preserves_inv N s n hinv

/-- Every sequence of operations preserves the cache invariant. -/
theorem runOps_preserves_inv (N : Nat) (s : CachedState) (ops : List Op)
    (hinv : CacheInv N s) : CacheInv N (runOps s ops) := by
  induction ops generalizing s with
  | nil => exact hinv
  | cons op rest ih => exact ih (applyOp s op) (applyOp_preserves_inv N s op hinv)

/-- C5: for every sequence of checkout, commit, load and drop operations on
a cached datastore with fixed `cache_size = N ≥ 1`, starting from the empty
cache, after every operation the cache holds at most one entry per dataset
name and at most `N` entries in total (every prefix of a sequence is itself
a sequence, so this covers every intermediate state). -/
theorem C5_cache_size_invariant (store0 : BackingState) (N c0 : Nat)
    (hsz : 1 ≤ N) (ops : List Op) :
    (keysC (runOps ⟨N, [], store0, c0⟩ ops).cache).Nodup ∧
    (runOps ⟨N, [], store0, c0⟩ ops).cache.length ≤ N :=
  (runOps_preserves_inv N ⟨N, [], store0, c0⟩ ops
    ⟨rfl, List.nodup_nil, Nat.zero_le N⟩).2

/-- The keys of an appended cache are the appended key lists. -/
theorem keysC_append (a b : Cache) : keysC (a ++ b) = keysC a ++ keysC b := by
  simp [keysC]

/-- C2: eviction happens only when `_update_cache` installs an entry for a
name not currently in the cache while the cache already holds `cache_size`
entries; in that case exactly one existing entry with the minimal insertion
timestamp is removed before the new entry is inserted, and no eviction
occurs when an existing name's entry is replaced or the cache is below
capacity.  Consequently, for `cache_size = N ≥ 1`, inserting `N + 1`
distinct names into an empty cache (each insertion stamped with the next,
strictly larger, clock tick) leaves exactly `N` entries, with the
first-inserted name the one that is absent and every later name present. -/
theorem C2_eviction_policy :
    (∀ (s : CachedState) (name : String) (ds : Dataset) (b : Bool),
      1 ≤ s.cache_size →
      ((∃ e0, lookupC s.cache name = some e0) →
        CachedDatastore.updateCache s name ds b =
          .ok { s with
                cache := insertC s.cache name ⟨ds, s.clock, b⟩,
                clock := s.clock + 1 }) ∧
      (s.cache.length < s.cache_size →
        CachedDatastore.updateCache s name ds b =
          .ok { s with
                cache := insertC s.cache name ⟨ds, s.clock, b⟩,
                clock := s.clock + 1 }) ∧
      (lookupC s.cache name = none → s.cache.length = s.cache_size →
        (keysC s.cache).Nodup →
        ∃ victim e, (victim, e) ∈ s.cache ∧
          (∀ p ∈ s.cache, e.created_at ≤ p.2.created_at) ∧
          (eraseC s.cache victim).length + 1 = s.cache.length ∧
          CachedDatastore.updateCache s name ds b =
            .ok { s with
                  cache := insertC (eraseC s.cache victim) name
                    ⟨ds, s.clock, b⟩,
                  clock := s.clock + 1 })) ∧
    (∀ (N c0 : Nat) (store0 : BackingState) (ds : Dataset) (n0 : String)
        (rest : List String),
      1 ≤ N → rest.length = N → (n0 :: rest).Nodup →
      ∃ sF, updateMany ds ⟨N, [], store0, c0⟩ (n0 :: rest) = .ok sF ∧
        sF.cache.length = N ∧ lookupC sF.cache n0 = none ∧
        ∀ m ∈ rest, m ∈ keysC sF.cache) := by
  constructor
  · intro s name ds b hsz
    refine ⟨?_, ?_, ?_⟩
    · rintro ⟨e0, hl⟩
      exact CachedDatastore.updateCache_of_mem s name ds b e0 hl
    · intro hlt
      exact CachedDatastore.updateCache_of_not_full s name ds b
        (Nat.ne_of_lt hlt)
    · intro hl hfull hnd
      have hne : s.cache ≠ [] := by
        intro h0
        rw [h0] at hfull
        simp only [List.length_nil] at hfull
        omega
      rcases h3 : CachedDatastore.evictScan s.cache with _ | ⟨k, ts⟩
      · exact absurd
          ((CachedDatastore.evictScan_eq_none_iff s.cache).mp h3) hne
      · obtain ⟨⟨e, hmem, hts⟩, hmin⟩ :=
          CachedDatastore.evictScan_spec s.cache k ts h3
        refine ⟨k, e, hmem, ?_, ?_, ?_⟩
        · intro p hp
          rw [hts]
          exact hmin p hp
        · exact length_eraseC_of_mem s.cache k hnd
            (List.mem_map_of_mem Prod.fst hmem)
        · exact CachedDatastore.updateCache_full_fresh s name ds b k ts
            hl hfull h3
  · intro N c0 store0 ds n0 rest hN hlen hnd
    rcases List.eq_nil_or_concat rest with hnil | ⟨mid, z, hrest⟩
    · rw [hnil] at hlen
      simp only [List.length_nil] at hlen
      omega
    · rw [List.concat_eq_append] at hrest
      subst hrest
      -- Nodup bookkeeping.
      obtain ⟨hn0, hndr⟩ := List.nodup_cons.mp hnd
      obtain ⟨hndm, -, hdisj⟩ := List.nodup_append.mp hndr
      have hn0mid : n0 ∉ mid := fun hm =>
        hn0 (List.mem_append.mpr (Or.inl hm))
      have hn0z : n0 ≠ z := fun he =>
        hn0 (List.mem_append.mpr (Or.inr (by simp [he])))
      have hzmid : z ∉ mid := fun hm => hdisj hm (by simp)
      have hnd01 : (n0 :: mid).Nodup := List.nodup_cons.mpr ⟨hn0mid, hndm⟩
      have hlen' : mid.length + 1 = N := by
        simp only [List.length_append, List.length_cons, List.length_nil]
          at hlen
        omega
      -- Fill the cache with the first N names.
      have hfill := updateMany_fill ds (n0 :: mid) ⟨N, [], store0, c0⟩ hnd01
        (by
          intro m hm
          simp [keysC])
        (by
          simp only [List.length_cons, List.length_nil]
          omega)
      have h1 : updateMany ds ⟨N, [], store0, c0⟩ (n0 :: mid) =
          .ok ⟨N, entriesFrom ds c0 (n0 :: mid), store0,
            c0 + (mid.length + 1)⟩ := hfill
      -- The final insertion evicts the first-inserted entry.
      have hkeys1 : keysC (entriesFrom ds c0 (n0 :: mid)) = n0 :: mid :=
        keysC_entriesFrom ds (n0 :: mid) c0
      have hzfresh : lookupC (entriesFrom ds c0 (n0 :: mid)) z = none := by
        apply (lookupC_eq_none_iff _ _).mpr
        rw [hkeys1]
        intro hm
        rcases List.mem_cons.mp hm with hm | hm
        · exact hn0z hm.symm
        · exact hzmid hm
      have hlen1 : (entriesFrom ds c0 (n0 :: mid)).length = N := by
        rw [length_entriesFrom]
        simp only [List.length_cons]
        omega
      have hscan : CachedDatastore.evictScan (entriesFrom ds c0 (n0 :: mid)) =
          some (n0, c0) := by
        show CachedDatastore.evictScan
          ((n0, (⟨ds, c0, true⟩ : CacheEntry)) ::
            entriesFrom ds (c0 + 1) mid) = some (n0, c0)
        exact CachedDatastore.evictScan_head n0 ⟨ds, c0, true⟩ _
          (fun p hp => le_trans (Nat.le_succ c0)
            (entriesFrom_created_at_ge ds mid (c0 + 1) p hp))
      set S1 : CachedState := ⟨N, entriesFrom ds c0 (n0 :: mid), store0,
        c0 + (mid.length + 1)⟩ with hS1
      have hstep := CachedDatastore.updateCache_full_fresh S1 z ds true n0 c0
        hzfresh hlen1 hscan
      have herase : eraseC (entriesFrom ds c0 (n0 :: mid)) n0 =
          entriesFrom ds (c0 + 1) mid := by
        have h0 : eraseC (entriesFrom ds c0 (n0 :: mid)) n0 =
            eraseC (entriesFrom ds (c0 + 1) mid) n0 := by
          simp [eraseC, entriesFrom, List.filter_cons]
        rw [h0]
        apply eraseC_of_not_mem
        rw [keysC_entriesFrom]
        exact hn0mid
      have hzmid2 : z ∉ keysC (entriesFrom ds (c0 + 1) mid) := by
        rw [keysC_entriesFrom]
        exact hzmid
      have hins : insertC (eraseC S1.cache n0) z ⟨ds, S1.clock, true⟩ =
          entriesFrom ds (c0 + 1) mid ++
            [(z, ⟨ds, c0 + (mid.length + 1), true⟩)] := by
        show insertC (eraseC (entriesFrom ds c0 (n0 :: mid)) n0) z
            ⟨ds, c0 + (mid.length + 1), true⟩ = _
        rw [herase]
        exact insertC_of_not_mem _ _ _ hzmid2
      refine ⟨{ S1 with
          cache := insertC (eraseC S1.cache n0) z ⟨ds, S1.clock, true⟩,
          clock := S1.clock + 1 }, ?_, ?_, ?_, ?_⟩
      · show updateMany ds ⟨N, [], store0, c0⟩ ((n0 :: mid) ++ [z]) = _
        rw [updateMany_append ds (n0 :: mid) [z] _, h1]
        simp [updateMany, hstep]
      · show (insertC (eraseC S1.cache n0) z ⟨ds, S1.clock, true⟩).length = N
        rw [hins, List.length_append, length_entriesFrom]
        simp only [List.length_cons, List.length_nil]
        omega
      · show lookupC (insertC (eraseC S1.cache n0) z ⟨ds, S1.clock, true⟩)
          n0 = none
        apply (lookupC_eq_none_iff _ _).mpr
        rw [hins, keysC_append, keysC_entriesFrom]
        intro hm
        rcases List.mem_append.mp hm with hm | hm
        · exact hn0mid hm
        · simp only [keysC, List.map_cons, List.map_nil,
            List.mem_singleton] at hm
          exact hn0z hm
      · intro m hm
        show m ∈ keysC (insertC (eraseC S1.cache n0) z ⟨ds, S1.clock, true⟩)
        rw [hins, keysC_append, keysC_entriesFrom]
        rcases List.mem_append.mp hm with hm | hm
        · exact List.mem_append.mpr (Or.inl hm)
        · refine List.mem_append.mpr (Or.inr ?_)
          simpa [keysC] using hm

/-- Witness for C2: a replacement without eviction, an eviction of the
minimal-timestamp entry from a full cache, and the N+1-insertions scenario
at N = 2, all at concrete inputs. -/
theorem C2_eviction_policy_witness :
    (CachedDatastore.updateCache sW2a "x" ⟨1, 1, 9⟩ true =
      .ok { sW2a with
            cache := insertC sW2a.cache "x" ⟨⟨1, 1, 9⟩, sW2a.clock, true⟩,
            clock := sW2a.clock + 1 }) ∧
    (∃ victim e, (victim, e) ∈ sW2b.cache ∧
      (∀ p ∈ sW2b.cache, e.created_at ≤ p.2.created_at) ∧
      (eraseC sW2b.cache victim).length + 1 = sW2b.cache.length ∧
      CachedDatastore.updateCache sW2b "w" ⟨1, 1, 9⟩ false =
        .ok { sW2b with
              cache := insertC (eraseC sW2b.cache victim) "w"
                ⟨⟨1, 1, 9⟩, sW2b.clock, false⟩,
              clock := sW2b.clock + 1 }) ∧
    (∃ sF, updateMany ⟨0, 0, 7⟩ ⟨2, [], [], 0⟩ ("a" :: ["b", "c"]) =
        .ok sF ∧
      sF.cache.length = 2 ∧ lookupC sF.cache "a" = none ∧
      ∀ m ∈ ["b", "c"], m ∈ keysC sF.cache) :=
  ⟨(C2_eviction_policy.1 sW2a "x" ⟨1, 1, 9⟩ true (by decide)).1
      ⟨⟨⟨0, 0, 1⟩, 5, true⟩, by decide⟩,
    (C2_eviction_policy.1 sW2b "w" ⟨1, 1, 9⟩ false (by decide)).2.2
      (by decide) (by decide) (by decide),
    C2_eviction_policy.2 2 0 [] ⟨0, 0, 7⟩ "a" ["b", "c"]
      (by decide) (by decide) (by decide)⟩

/-- Witness for C5 at a concrete operation sequence. -/
theorem C5_cache_size_invariant_witness :
    (keysC (runOps ⟨1, [], [], 0⟩
      [Op.load 5 "a" "idA", Op.load 6 "b" "idB",
        Op.checkout "a" none, Op.commit 7 "b" none,
        Op.drop "b"]).cache).Nodup ∧
    (runOps ⟨1, [], [], 0⟩
      [Op.load 5 "a" "idA", Op.load 6 "b" "idB",
        Op.checkout "a" none, Op.commit 7 "b" none,
        Op.drop "b"]).cache.length ≤ 1 :=
  C5_cache_size_invariant [] 1 0 (by decide)
    [Op.load 5 "a" "idA", Op.load 6 "b" "idB",
      Op.checkout "a" none, Op.commit 7 "b" none,
      Op.drop "b"]

/-- Witness for C10: version `999` does not exist in the history of `a`,
yet `metadata` returns a store rooted at the directory for version 999. -/
theorem C10_metadata_version_unchecked_witness :
    (999 ∉ [(0 : Nat), 1]) ∧
    HISTOREDatastore.metadata "base" storeW10 "a" (some 999) =
      .ok ⟨HISTOREDatastore.metaPath "base" "idA" 999⟩ :=
  ⟨by decide,
    ((C10_metadata_version_unchecked "base" storeW10 "a").2
      ⟨"idA", [⟨0, 0, 5⟩, ⟨1, 1, 6⟩]⟩ (by decide)).1 999⟩

end OpencleanDS
